import Mathlib

/-!
Shallow embedding of the line classification and formatting engine of `ted`
(src/ted.go).  Raw lines and texts are modelled as `List Char`; character
positions are measured in UTF-8 bytes via `Char.utf8Size`, exactly as the Go
`for i, r := range text` loop does.  Go machine integers that can go negative
(`length - 2*tabstop`) are modelled as `Int`; the out-of-range string slices
of `format` are modelled with `Option`.
-/

namespace Ted

/-- Go's `unicode.IsSpace`: the Unicode White_Space property. -/
def goIsSpace (c : Char) : Bool :=
  c = ' ' || c = '\t' || c = '\n' || c = '\x0b' || c = '\x0c' || c = '\r' ||
  c = '\u0085' || c = '\u00A0' || c = '\u1680' ||
  ('\u2000' ≤ c && c ≤ '\u200A') ||
  c = '\u2028' || c = '\u2029' || c = '\u202F' || c = '\u205F' || c = '\u3000'

/-- The `line` struct of ted.go (lines 100-108). -/
structure line where
  text       : List Char -- text of the line
  indent     : Nat       -- number of spaces at the beginning of line
  indented   : Bool      -- indent > 0
  incomplete : Bool      -- line ended with a backslash (stripped from text)
  blank      : Bool      -- line is empty or contains only white space
  tabular    : Bool      -- has at least 2 columns separated by tabs
  quoted     : Bool      -- is indented only with tabs
  deriving Repr, DecidableEq

/-- `(*line).concat` of ted.go (lines 110-123). -/
def line.concat (l r : line) : line :=
  let becomesTabular := l.tabular || r.tabular || r.quoted
  { l with
    text := l.text ++ ' ' :: r.text
    incomplete := r.incomplete
    blank := l.blank && r.blank
    tabular := becomesTabular
    quoted := l.quoted && !becomesTabular }

/-- State of the character scan loop of `readline` (ted.go lines 140-159). -/
structure scanSt where
  indent      : Nat
  indentChars : Nat
  lastTab     : Nat
  tabCount    : Nat
  inIndent    : Bool
  deriving Repr, DecidableEq

/-- One iteration of the scan loop, at byte position `i` looking at rune `c`. -/
def scanStep (tabstop : Nat) (st : scanSt) (i : Nat) (c : Char) : scanSt :=
  if c = '\t' then
    let st := { st with tabCount := st.tabCount + 1, lastTab := i }
    if st.inIndent then
      let ind := st.indent + tabstop
      { st with indent := ind - ind % tabstop, indentChars := st.indentChars + 1 }
    else st
  else if goIsSpace c then
    if st.inIndent then
      { st with indent := st.indent + 1, indentChars := st.indentChars + 1 }
    else st
  else
    { st with inIndent := false }

/-- The whole scan loop; `i` is the byte offset of the first rune of `s`. -/
def scanAux (tabstop : Nat) : scanSt → Nat → List Char → scanSt
  | st, _, [] => st
  | st, i, c :: cs => scanAux tabstop (scanStep tabstop st i c) (i + c.utf8Size) cs

/-- Classification of a raw line body (after the continuation backslash, if
any, has been stripped): ted.go lines 140-173. -/
def readlineBody (tabstop : Nat) (incomplete : Bool) (body : List Char) : line :=
  let st := scanAux tabstop ⟨0, 0, 0, 0, true⟩ 0 body
  let blank := st.inIndent
  let quoted := !blank && decide (0 < st.tabCount) && decide (st.lastTab + 1 = st.tabCount)
  let tabular := !blank && decide (0 < st.tabCount) && !quoted
  { text := body.drop st.indentChars
    indent := st.indent
    indented := decide (0 < st.indent)
    incomplete := incomplete
    blank := blank
    tabular := tabular
    quoted := quoted }

/-- `readline` of ted.go (lines 126-174), as a pure function of the raw line
text it got from the line source. -/
def readline (tabstop : Nat) (raw : List Char) : line :=
  if raw.getLast? = some '\\' then readlineBody tabstop true raw.dropLast
  else readlineBody tabstop false raw

/-- One step of the join loop of `readlines` (ted.go lines 181-188).  The
accumulator is kept reversed, so its head is the `prevLine` pointer: the most
recently appended logical line, which `concat` mutates in place. -/
def pushLine (join : Bool) (acc : List line) (curr : line) : List line :=
  match acc with
  | [] => [curr]
  | prev :: acc =>
    if !curr.blank && (prev.incomplete || join) then prev.concat curr :: acc
    else curr :: prev :: acc

/-- The join loop over all classified lines, producing the reversed output. -/
def joinAcc (join : Bool) : List line → List line → List line
  | acc, [] => acc
  | acc, curr :: rest => joinAcc join (pushLine join acc curr) rest

/-- `readlines` of ted.go (lines 177-191), as a function of the sequence of
raw lines supplied by the line source before EOF. -/
def readlines (tabstop : Nat) (join : Bool) (raws : List (List Char)) : List line :=
  (joinAcc join [] (raws.map (readline tabstop))).reverse

/-! ## The word-wrap routine

Modelled from the spec: `ted` delegates word wrapping to the external
library function `text.Wrap`, whose code is not part of this repository.  The
spec's word-wrap semantics: break the text into rows at whitespace boundaries
only, never mid-word, such that each row's rendered width does not exceed the
limit, except that a single word longer than the limit occupies its own row
unbroken; consecutive whitespace is normalized to single spaces. -/

/-- Split a text into its maximal whitespace-free words (whitespace runs are
collapsed, i.e. normalized away). -/
def splitWords : List Char → List (List Char)
  | [] => []
  | c :: cs =>
    if goIsSpace c then splitWords cs
    else
      match cs with
      | [] => [[c]]
      | d :: _ =>
        if goIsSpace d then [c] :: splitWords cs
        else
          match splitWords cs with
          | [] => [[c]]
          | w :: ws => (c :: w) :: ws

/-- Greedy filling of rows of words: `cur` is the reversed current row and
`width` its rendered width.  A word is added to the current row only when the
row would still fit in `lim`. -/
def wrapGo (lim : Int) (cur : List (List Char)) (width : Nat) :
    List (List Char) → List (List (List Char))
  | [] => [cur.reverse]
  | w :: ws =>
    if (width + 1 + w.length : Int) ≤ lim then
      wrapGo lim (w :: cur) (width + 1 + w.length) ws
    else
      cur.reverse :: wrapGo lim [w] w.length ws

/-- Break a list of words into rows of words. -/
def wrapWords (lim : Int) : List (List Char) → List (List (List Char))
  | [] => []
  | w :: ws => wrapGo lim [w] w.length ws

/-- Render a row of words: join them with single spaces. -/
def rowText (row : List (List Char)) : List Char :=
  List.intercalate [' '] row

/-- Rendered width of a row of words. -/
def rowW (row : List (List Char)) : Nat :=
  (row.map List.length).sum + (row.length - 1)

/-- The rendered rows of the word-wrapped text. -/
def wrapRows (lim : Int) (s : List Char) : List (List Char) :=
  (wrapWords lim (splitWords s)).map rowText

/-- The wrapped text: rows joined by newlines (no trailing newline). -/
def wrap (lim : Int) (s : List Char) : List Char :=
  List.intercalate ['\n'] (wrapRows lim s)

/-! ## The tabular renderer

Modelled from the spec: `ted` delegates column alignment to `text/tabwriter`,
whose code is not part of this repository.  The spec: for each column index,
the rendered width is the maximum field width plus one separator space among
all currently-buffered lines that have a field at that index; fields are
left-justified and padded with spaces to that width; widths are computed only
from the lines accumulated since the last flush. -/

/-- Split a buffered line into its tab-separated fields. -/
def fields : List Char → List (List Char)
  | [] => [[]]
  | c :: cs =>
    let r := fields cs
    if c = '\t' then [] :: r
    else
      match r with
      | [] => [[c]]
      | f :: fs => (c :: f) :: fs

/-- Rendered width of column `j` of a buffered block. -/
def colW (block : List (List Char)) (j : Nat) : Nat :=
  (block.map fun row =>
    match (fields row).get? j with
    | some f => f.length + 1
    | none => 0).foldr max 0

/-- Left-justify a field by padding it with spaces to width `n`. -/
def padTo (n : Nat) (f : List Char) : List Char :=
  f ++ List.replicate (n - f.length) ' '

/-- Render the fields of one line of a block, starting at column `j`; the
last field of a line is terminal and is not padded. -/
def renderFields (block : List (List Char)) (j : Nat) : List (List Char) → List Char
  | [] => []
  | [f] => f
  | f :: fs => padTo (colW block j) f ++ renderFields block (j + 1) fs

/-- Flush a buffered block of tabular lines with column alignment; each
rendered line ends with a newline. -/
def renderTab (block : List (List Char)) : List Char :=
  (block.map fun row => renderFields block 0 (fields row) ++ ['\n']).flatten

/-! ## The formatter (ted.go lines 193-228) -/

/-- The two 256-byte padding buffers of ted.go (lines 193-196). -/
def spaces : List Char := List.replicate 256 ' '

/-- See `spaces`. -/
def ats : List Char := List.replicate 256 '@'

/-- Go string slicing `s[0:n]`: panics (here: `none`) when `n > len(s)`. -/
def sliceTo (s : List Char) (n : Nat) : Option (List Char) :=
  if n ≤ s.length then some (s.take n) else none

/-- Go string slicing `s[n:]`: panics (here: `none`) when `n > len(s)`. -/
def sliceFrom (s : List Char) (n : Nat) : Option (List Char) :=
  if n ≤ s.length then some (s.drop n) else none

/-- The configuration flags read by `format`: `-l` and `-t`. -/
structure config where
  length : Int
  tabstop : Nat
  deriving Repr, DecidableEq

/-- The body emitted for one non-tabular line by the `switch` of `format`
(ted.go lines 208-222), without the unconditional trailing newline.  The
`quoted` branch prefixes every wrapped row with a `tabstop`-space margin
(`text.Indent`, modelled from the spec); the `indented` branch wraps with an
`@`-placeholder prefix and then swaps it for real spaces. -/
def fmtBody (cfg : config) (l : line) : Option (List Char) :=
  if l.blank then some [] -- ignore
  else if l.quoted then do
    let margin ← sliceTo spaces cfg.tabstop
    some (List.intercalate ['\n']
      ((wrapRows (cfg.length - cfg.tabstop * 2) l.text).map (margin ++ ·)))
  else if l.indented then do
    let pre ← sliceTo ats l.indent
    let t := wrap cfg.length (pre ++ l.text)
    let sp ← sliceTo spaces l.indent
    let rest ← sliceFrom t l.indent
    some (sp ++ rest)
  else
    some (wrap cfg.length l.text)

/-- The loop of `format` (ted.go lines 199-228): `buf` is the text buffered
in the tabwriter since the last flush. -/
def formatAux (cfg : config) (buf : List (List Char)) : List line → Option (List Char)
  | [] => some (renderTab buf)
  | l :: ls =>
    if l.tabular then formatAux cfg (buf ++ [l.text]) ls
    else do
      let body ← fmtBody cfg l
      let rest ← formatAux cfg [] ls
      some (renderTab buf ++ body ++ '\n' :: rest)

/-- `format` of ted.go (lines 198-228). -/
def format (cfg : config) (lines : List line) : Option (List Char) :=
  formatAux cfg [] lines

/-! ## Lemmas about the word-wrap routine -/

theorem rowW_single (w : List Char) : rowW [w] = w.length := by
  simp [rowW]

theorem rowW_append_single (row : List (List Char)) (w : List Char) (h : row ≠ []) :
    rowW (row ++ [w]) = rowW row + 1 + w.length := by
  have hpos : 0 < row.length := List.length_pos.mpr h
  simp [rowW]
  omega

theorem wrapGo_flatten (lim : Int) :
    ∀ (ws cur : List (List Char)) (width : Nat),
      (wrapGo lim cur width ws).flatten = cur.reverse ++ ws := by
  intro ws
  induction ws with
  | nil => intro cur width; simp [wrapGo]
  | cons w ws ih =>
    intro cur width
    unfold wrapGo
    split
    · rw [ih]; simp
    · rw [List.flatten_cons, ih]; simp

theorem wrapGo_row_bound (lim : Int) :
    ∀ (ws cur : List (List Char)) (width : Nat),
      cur ≠ [] → width = rowW cur.reverse → (1 < cur.length → (width : Int) ≤ lim) →
      ∀ row ∈ wrapGo lim cur width ws, (rowW row : Int) ≤ lim ∨ ∃ w, row = [w] := by
  intro ws
  induction ws with
  | nil =>
    intro cur width hne hw hinv row hrow
    simp only [wrapGo, List.mem_singleton] at hrow
    subst hrow
    match cur, hne with
    | [w], _ => exact Or.inr ⟨w, rfl⟩
    | w :: v :: cur, _ =>
      left
      rw [← hw]
      exact hinv (by simp)
  | cons w ws ih =>
    intro cur width hne hw hinv row hrow
    unfold wrapGo at hrow
    split at hrow
    case isTrue hfit =>
      refine ih (w :: cur) (width + 1 + w.length) (by simp) ?_ (fun _ => ?_) row hrow
      · rw [List.reverse_cons, rowW_append_single _ _ (by simpa using hne), ← hw]
      · exact_mod_cast hfit
    case isFalse hfit =>
      rcases List.mem_cons.mp hrow with hrow | hrow
      · subst hrow
        match cur, hne with
        | [u], _ => exact Or.inr ⟨u, rfl⟩
        | u :: v :: cur, _ =>
          left
          rw [← hw]
          exact hinv (by simp)
      · exact ih [w] w.length (by simp) (by simp [rowW]) (by intro h; simp at h) row hrow

theorem wrapWords_flatten (lim : Int) (ws : List (List Char)) :
    (wrapWords lim ws).flatten = ws := by
  cases ws with
  | nil => rfl
  | cons w ws => unfold wrapWords; rw [wrapGo_flatten]; rfl

theorem wrapWords_row_bound (lim : Int) (ws : List (List Char)) :
    ∀ row ∈ wrapWords lim ws, (rowW row : Int) ≤ lim ∨ ∃ w, row = [w] := by
  cases ws with
  | nil => intro row h; simp [wrapWords] at h
  | cons w ws =>
    exact wrapGo_row_bound lim ws [w] w.length (by simp) (by simp [rowW])
      (by intro h; simp at h)

theorem rowText_single (w : List Char) : rowText [w] = w := by
  simp [rowText, List.intercalate, List.intersperse]

theorem rowText_cons_cons (w v : List Char) (t : List (List Char)) :
    rowText (w :: v :: t) = w ++ ' ' :: rowText (v :: t) := by
  simp [rowText, List.intercalate, List.intersperse]

theorem length_rowText : ∀ row, (rowText row).length = rowW row
  | [] => by simp [rowText, List.intercalate, List.intersperse, rowW]
  | [w] => by simp [rowText_single, rowW_single]
  | w :: v :: t => by
    have ih := length_rowText (v :: t)
    rw [rowText_cons_cons]
    simp only [List.length_append, List.length_cons, ih, rowW]
    simp
    omega

/-! ## Lemmas about the classification scan -/

/-- Byte offset of the last tab of a text, if any. -/
def lastTabIdx : List Char → Option Nat
  | [] => none
  | c :: cs =>
    match lastTabIdx cs with
    | some j => some (c.utf8Size + j)
    | none => if c = '\t' then some 0 else none

theorem lastTabIdx_cons (c : Char) (cs : List Char) :
    lastTabIdx (c :: cs) =
      match lastTabIdx cs with
      | some j => some (c.utf8Size + j)
      | none => if c = '\t' then some 0 else none := rfl

theorem scanStep_tabCount (ts : Nat) (st : scanSt) (i : Nat) (c : Char) :
    (scanStep ts st i c).tabCount = st.tabCount + if c = '\t' then 1 else 0 := by
  by_cases hc : c = '\t'
  · by_cases hi : st.inIndent <;> simp [scanStep, hc, hi]
  · by_cases hs : goIsSpace c <;> by_cases hi : st.inIndent <;> simp [scanStep, hc, hs, hi]

theorem scanStep_lastTab (ts : Nat) (st : scanSt) (i : Nat) (c : Char) :
    (scanStep ts st i c).lastTab = if c = '\t' then i else st.lastTab := by
  by_cases hc : c = '\t'
  · by_cases hi : st.inIndent <;> simp [scanStep, hc, hi]
  · by_cases hs : goIsSpace c <;> by_cases hi : st.inIndent <;> simp [scanStep, hc, hs, hi]

theorem scanStep_inIndent (ts : Nat) (st : scanSt) (i : Nat) (c : Char) :
    (scanStep ts st i c).inIndent = (st.inIndent && goIsSpace c) := by
  by_cases hc : c = '\t'
  · subst hc
    by_cases hi : st.inIndent <;>
      simp [scanStep, hi, (by decide : goIsSpace '\t' = true)]
  · by_cases hs : goIsSpace c <;> by_cases hi : st.inIndent <;> simp [scanStep, hc, hs, hi]

theorem scanAux_tabCount (ts : Nat) :
    ∀ (s : List Char) (st : scanSt) (i : Nat),
      (scanAux ts st i s).tabCount = st.tabCount + s.count '\t' := by
  intro s
  induction s with
  | nil => intro st i; simp [scanAux]
  | cons c cs ih =>
    intro st i
    rw [scanAux, ih, scanStep_tabCount, List.count_cons]
    have : (c == '\t') = decide (c = '\t') := by rfl
    split <;> simp_all
    all_goals omega

theorem scanAux_lastTab (ts : Nat) :
    ∀ (s : List Char) (st : scanSt) (i : Nat),
      (scanAux ts st i s).lastTab =
        match lastTabIdx s with
        | some j => i + j
        | none => st.lastTab := by
  intro s
  induction s with
  | nil => intro st i; simp [scanAux, lastTabIdx]
  | cons c cs ih =>
    intro st i
    rw [scanAux, ih, lastTabIdx_cons]
    rcases h : lastTabIdx cs with _ | j <;> dsimp only
    · rw [scanStep_lastTab]
      by_cases hc : c = '\t' <;> simp [hc]
    · exact Nat.add_assoc i c.utf8Size j

theorem scanAux_inIndent (ts : Nat) :
    ∀ (s : List Char) (st : scanSt) (i : Nat),
      (scanAux ts st i s).inIndent = (st.inIndent && s.all goIsSpace) := by
  intro s
  induction s with
  | nil => intro st i; simp [scanAux]
  | cons c cs ih =>
    intro st i
    rw [scanAux, ih, scanStep_inIndent, List.all_cons, Bool.and_assoc]

theorem lastTabIdx_eq_none (s : List Char) :
    lastTabIdx s = none ↔ s.count '\t' = 0 := by
  induction s with
  | nil => simp [lastTabIdx]
  | cons c cs ih =>
    rw [lastTabIdx_cons]
    rcases h : lastTabIdx cs with _ | j <;> dsimp only
    · have hz : cs.count '\t' = 0 := ih.mp h
      by_cases hc : c = '\t' <;> simp [hc, List.count_cons, hz]
    · have hnz : cs.count '\t' ≠ 0 := fun hz => by
        rw [ih.mpr hz] at h
        exact Option.noConfusion h
      simp only [List.count_cons]
      constructor
      · intro hh; exact Option.noConfusion hh
      · intro hh
        exact absurd (by split at hh <;> omega : cs.count '\t' = 0) hnz

theorem lastTabIdx_count_le (s : List Char) :
    ∀ j, lastTabIdx s = some j → s.count '\t' ≤ j + 1 := by
  induction s with
  | nil => intro j h; simp [lastTabIdx] at h
  | cons c cs ih =>
    intro j h
    rw [lastTabIdx_cons] at h
    rcases hcs : lastTabIdx cs with _ | j' <;> rw [hcs] at h <;> dsimp only at h
    · split at h
      case isTrue hc =>
        have hz : cs.count '\t' = 0 := (lastTabIdx_eq_none cs).mp hcs
        simp only [Option.some.injEq] at h
        simp only [List.count_cons, hz, hc]
        simp
      case isFalse hc => exact Option.noConfusion h
    · simp only [Option.some.injEq] at h
      have h1 := ih j' hcs
      have h2 := Char.utf8Size_pos c
      simp only [List.count_cons]
      split <;> omega

theorem lastTabIdx_tabs_lead (s : List Char) :
    ∀ j, lastTabIdx s = some j → j + 1 = s.count '\t' →
      (s.take (s.count '\t')).all (· == '\t') = true := by
  induction s with
  | nil => intro j h _; simp [lastTabIdx] at h
  | cons c cs ih =>
    intro j h hcnt
    rw [lastTabIdx_cons] at h
    rcases hcs : lastTabIdx cs with _ | j' <;> rw [hcs] at h <;> dsimp only at h
    · split at h
      case isTrue hc =>
        have hz : cs.count '\t' = 0 := (lastTabIdx_eq_none cs).mp hcs
        subst hc
        have hcount : ('\t' :: cs).count '\t' = 1 := by simp [List.count_cons, hz]
        rw [hcount]
        simp
      case isFalse hc => exact Option.noConfusion h
    · simp only [Option.some.injEq] at h
      subst h
      by_cases hc : c = '\t'
      · subst hc
        have hsize : ('\t' : Char).utf8Size = 1 := by decide
        rw [hsize] at hcnt
        have hcount : ('\t' :: cs).count '\t' = cs.count '\t' + 1 := by
          simp [List.count_cons]
        rw [hcount] at hcnt ⊢
        have hih := ih j' hcs (by omega)
        rw [List.take_succ_cons]
        simp only [List.all_cons, hih]
        simp
      · have h1 := lastTabIdx_count_le cs j' hcs
        have h2 := Char.utf8Size_pos c
        have hcount : (c :: cs).count '\t' = cs.count '\t' := by
          simp [List.count_cons, hc]
        rw [hcount] at hcnt
        exfalso
        omega

theorem tabs_lead_lastTabIdx (s : List Char) :
    ∀ cnt, cnt = s.count '\t' → 0 < cnt →
      (s.take cnt).all (· == '\t') = true → lastTabIdx s = some (cnt - 1) := by
  induction s with
  | nil => intro cnt h h0 _; simp at h; omega
  | cons c cs ih =>
    intro cnt h h0 hall
    obtain ⟨m, rfl⟩ : ∃ m, cnt = m + 1 := ⟨cnt - 1, by omega⟩
    rw [List.take_succ_cons, List.all_cons, Bool.and_eq_true] at hall
    obtain ⟨hc, hall'⟩ := hall
    have hc' : c = '\t' := by simpa using hc
    subst hc'
    have hcount : m = cs.count '\t' := by
      rw [List.count_cons] at h
      simp at h
      omega
    by_cases hm : m = 0
    · subst hm
      have hnone : lastTabIdx cs = none := (lastTabIdx_eq_none cs).mpr hcount.symm
      rw [lastTabIdx_cons, hnone]
      simp
    · have hih := ih m hcount (by omega) hall'
      rw [lastTabIdx_cons, hih]
      dsimp only
      have hsize : ('\t' : Char).utf8Size = 1 := by decide
      rw [hsize]
      congr 1
      omega

/-- The continuation-marker stripping of `readline` (ted.go lines 135-138). -/
def stripSlash (raw : List Char) : List Char :=
  if raw.getLast? = some '\\' then raw.dropLast else raw

theorem readlineBody_quoted (ts : Nat) (inc : Bool) (body : List Char) :
    (readlineBody ts inc body).quoted =
      (!body.all goIsSpace && decide (0 < body.count '\t') &&
        (body.take (body.count '\t')).all (· == '\t')) := by
  have hInd := scanAux_inIndent ts body ⟨0, 0, 0, 0, true⟩ 0
  have hCnt := scanAux_tabCount ts body ⟨0, 0, 0, 0, true⟩ 0
  have hLast := scanAux_lastTab ts body ⟨0, 0, 0, 0, true⟩ 0
  simp only [readlineBody, hInd, hCnt, hLast, Bool.true_and, Nat.zero_add]
  rcases hlt : lastTabIdx body with _ | j <;> dsimp only
  · have hz : body.count '\t' = 0 := (lastTabIdx_eq_none body).mp hlt
    simp [hz]
  · have hnz : body.count '\t' ≠ 0 := by
      intro hz
      rw [(lastTabIdx_eq_none body).mpr hz] at hlt
      exact Option.noConfusion hlt
    by_cases hj : j + 1 = body.count '\t'
    · have hlead := lastTabIdx_tabs_lead body j hlt hj
      simp [hj, hlead, hnz, Nat.pos_of_ne_zero hnz]
    · have hnotlead : (body.take (body.count '\t')).all (· == '\t') = false := by
        rcases hcon : (body.take (body.count '\t')).all (· == '\t') with _ | _
        · rfl
        · have := tabs_lead_lastTabIdx body (body.count '\t') rfl
            (Nat.pos_of_ne_zero hnz) hcon
          rw [hlt] at this
          simp only [Option.some.injEq] at this
          exfalso
          omega
      simp [hj, hnotlead]

/-! ## Lemmas about the join loop and the flag invariants -/

theorem pushLine_blank_append (join : Bool) (acc : List line) (curr : line)
    (h : curr.blank = true) : pushLine join acc curr = curr :: acc := by
  cases acc with
  | nil => rfl
  | cons prev acc => simp [pushLine, h]

theorem pushLine_head (join : Bool) (acc : List line) (curr : line) :
    ∃ h t, pushLine join acc curr = h :: t ∧ h.incomplete = curr.incomplete := by
  cases acc with
  | nil => exact ⟨curr, [], rfl, rfl⟩
  | cons prev acc =>
    by_cases hc : (!curr.blank && (prev.incomplete || join)) = true
    · exact ⟨prev.concat curr, acc, by simp [pushLine, hc], rfl⟩
    · exact ⟨curr, prev :: acc, by simp [pushLine, hc], rfl⟩

theorem joinAcc_append (join : Bool) :
    ∀ (xs : List line) (acc : List line) (x : line),
      joinAcc join acc (xs ++ [x]) = pushLine join (joinAcc join acc xs) x := by
  intro xs
  induction xs with
  | nil => intro acc x; rfl
  | cons y ys ih =>
    intro acc x
    rw [List.cons_append]
    show joinAcc join (pushLine join acc y) (ys ++ [x]) = _
    rw [ih]
    rfl

/-- The two spec invariants on a logical line's flags. -/
def flagsOK (l : line) : Prop :=
  (l.tabular && l.quoted) = false ∧
    (l.blank = true → l.tabular = false ∧ l.quoted = false)

theorem flags_aux (b d1 d2 : Bool) :
    ((!b && d1 && !(!b && d1 && d2)) && (!b && d1 && d2)) = false ∧
      (b = true → (!b && d1 && !(!b && d1 && d2)) = false ∧ (!b && d1 && d2) = false) := by
  cases b <;> cases d1 <;> cases d2 <;> simp

theorem readlineBody_flagsOK (ts : Nat) (inc : Bool) (body : List Char) :
    flagsOK (readlineBody ts inc body) := by
  simp only [flagsOK, readlineBody]
  exact flags_aux _ _ _

theorem readline_flagsOK (ts : Nat) (raw : List Char) : flagsOK (readline ts raw) := by
  unfold readline
  split <;> exact readlineBody_flagsOK ..

theorem concat_flagsOK (l r : line) (hl : flagsOK l) (hr : flagsOK r) :
    flagsOK (l.concat r) := by
  obtain ⟨hl1, hl2⟩ := hl
  obtain ⟨hr1, hr2⟩ := hr
  simp only [flagsOK, line.concat]
  constructor
  · cases l.tabular <;> cases r.tabular <;> cases r.quoted <;> cases l.quoted <;> simp
  · intro hb
    simp only [Bool.and_eq_true] at hb
    obtain ⟨hlt, hlq⟩ := hl2 hb.1
    obtain ⟨hrt, hrq⟩ := hr2 hb.2
    simp [hlt, hlq, hrt, hrq]

theorem pushLine_flagsOK (join : Bool) (acc : List line) (curr : line)
    (hacc : ∀ a ∈ acc, flagsOK a) (hcurr : flagsOK curr) :
    ∀ a ∈ pushLine join acc curr, flagsOK a := by
  cases acc with
  | nil =>
    intro a ha
    simp only [pushLine, List.mem_singleton] at ha
    subst ha
    exact hcurr
  | cons prev acc =>
    intro a ha
    by_cases hc : (!curr.blank && (prev.incomplete || join)) = true
    · rw [show pushLine join (prev :: acc) curr = prev.concat curr :: acc from by
        simp [pushLine, hc]] at ha
      rcases List.mem_cons.mp ha with rfl | ha
      · exact concat_flagsOK prev curr (hacc prev (by simp)) hcurr
      · exact hacc a (by simp [ha])
    · rw [show pushLine join (prev :: acc) curr = curr :: prev :: acc from by
        simp [pushLine, hc]] at ha
      rcases List.mem_cons.mp ha with rfl | ha
      · exact hcurr
      · exact hacc a ha

theorem joinAcc_flagsOK (ts : Nat) (join : Bool) :
    ∀ (raws : List (List Char)) (acc : List line),
      (∀ a ∈ acc, flagsOK a) →
      ∀ a ∈ joinAcc join acc (raws.map (readline ts)), flagsOK a := by
  intro raws
  induction raws with
  | nil => intro acc hacc a ha; exact hacc a ha
  | cons raw raws ih =>
    intro acc hacc a ha
    rw [List.map_cons] at ha
    exact ih (pushLine join acc (readline ts raw))
      (pushLine_flagsOK join acc _ hacc (readline_flagsOK ts raw)) a ha

theorem readlines_flagsOK (ts : Nat) (join : Bool) (raws : List (List Char)) :
    ∀ l ∈ readlines ts join raws, flagsOK l := by
  intro l hl
  rw [readlines, List.mem_reverse] at hl
  exact joinAcc_flagsOK ts join raws [] (by intro a ha; simp at ha) l hl

/-! ## Lemmas about the formatter -/

theorem fmtBody_incomplete (cfg : config) (l : line) (b : Bool) :
    fmtBody cfg { l with incomplete := b } = fmtBody cfg l := by
  cases l
  rfl

theorem formatAux_incomplete (cfg : config) :
    ∀ (ls : List line) (buf : List (List Char)),
      formatAux cfg buf (ls.map fun l => { l with incomplete := false }) =
        formatAux cfg buf ls := by
  intro ls
  induction ls with
  | nil => intro buf; rfl
  | cons l ls ih =>
    intro buf
    rw [List.map_cons]
    unfold formatAux
    have htab : ({ l with incomplete := false } : line).tabular = l.tabular := by
      cases l
      rfl
    have htext : ({ l with incomplete := false } : line).text = l.text := by
      cases l
      rfl
    rw [htab, htext, fmtBody_incomplete, ih (buf ++ [l.text]), ih []]

theorem formatAux_tab_block (cfg : config) :
    ∀ (block : List line) (buf : List (List Char)) (rest : List line),
      (∀ b ∈ block, b.tabular = true) →
      formatAux cfg buf (block ++ rest) = formatAux cfg (buf ++ block.map line.text) rest := by
  intro block
  induction block with
  | nil => intro buf rest _; simp
  | cons b bl ih =>
    intro buf rest hb
    have hbt : b.tabular = true := hb b (by simp)
    rw [List.cons_append]
    conv_lhs => unfold formatAux
    rw [if_pos hbt, ih (buf ++ [b.text]) rest (fun x hx => hb x (by simp [hx]))]
    simp

theorem le_foldr_max (a : Nat) : ∀ (l : List Nat), a ∈ l → a ≤ l.foldr max 0 := by
  intro l
  induction l with
  | nil => intro h; simp at h
  | cons x xs ih =>
    intro h
    simp only [List.foldr_cons]
    rcases List.mem_cons.mp h with rfl | h
    · exact le_max_left _ _
    · exact le_trans (ih h) (le_max_right _ _)

theorem colW_ge (block : List (List Char)) (row : List Char) (j : Nat) (f : List Char)
    (hrow : row ∈ block) (hf : (fields row).get? j = some f) :
    f.length + 1 ≤ colW block j := by
  apply le_foldr_max
  exact List.mem_map.mpr ⟨row, hrow, by rw [hf]⟩
/-! ## The claims -/

/-- C1 counterexample: the claim (and the spec scenario) says the line of
four spaces, a tab, then text is classified quoted; the code classifies it
tabular, because its quoted test `lastTab+1 == tabCount` demands that all
tabs sit at the very start of the line, not merely inside the leading
indentation run. -/
theorem readline_spaces_then_tab_not_quoted :
    (readline 4 "    \tnested quote text that is somewhat long indeed".toList).quoted = false ∧
      (readline 4 "    \tnested quote text that is somewhat long indeed".toList).tabular = true ∧
      (readline 4 "    \tnested quote text that is somewhat long indeed".toList).blank = false ∧
      0 < (scanAux 4 ⟨0, 0, 0, 0, true⟩ 0
            "    \tnested quote text that is somewhat long indeed".toList).tabCount ∧
      (scanAux 4 ⟨0, 0, 0, 0, true⟩ 0
            "    \tnested quote text that is somewhat long indeed".toList).lastTab <
        (scanAux 4 ⟨0, 0, 0, 0, true⟩ 0
            "    \tnested quote text that is somewhat long indeed".toList).indentChars := by
  decide

/-- C1 (amended): classification marks a raw line quoted iff, after stripping
a trailing backslash, the line is non-blank, contains at least one tab, and
all of its tabs form a leading run at the very start of the line (its first
`tabCount` characters are tabs).  In particular indentation mixing spaces
before a tab makes the line tabular, not quoted. -/
theorem readline_quoted_iff_tabs_lead (ts : Nat) (raw : List Char) :
    (readline ts raw).quoted =
      (!(stripSlash raw).all goIsSpace &&
        decide (0 < (stripSlash raw).count '\t') &&
        ((stripSlash raw).take ((stripSlash raw).count '\t')).all (· == '\t')) := by
  by_cases h : raw.getLast? = some '\\'
  · simp only [readline, stripSlash, if_pos h]
    exact readlineBody_quoted ts true raw.dropLast
  · simp only [readline, stripSlash, if_neg h]
    exact readlineBody_quoted ts false raw

set_option maxRecDepth 4000 in
/-- C2: `format` is claimed total with unreachable panic branches for any
amount of leading whitespace, but its padding buffers `spaces` and `ats` hold
only 256 bytes: a line indented by 257 spaces reaches `ats[0:line.indent]`
with `line.indent = 257 > 256`, an out-of-range slice (a Go panic, `none` in
this model). -/
theorem format_panics_on_deep_indent :
    format ⟨120, 4⟩ [readline 4 (List.replicate 257 ' ' ++ ['x'])] = none ∧
      (readline 4 (List.replicate 257 ' ' ++ ['x'])).indent = 257 ∧
      ats.length = 256 := by
  decide

/-- C3 counterexample: the claim says a blank logical line emits zero bytes;
the code's unconditional `buf.WriteRune('\n')` (ted.go line 223) runs for the
blank case too, so a lone blank line emits one newline. -/
theorem format_blank_emits_newline :
    format ⟨120, 4⟩ [readline 4 []] = some ['\n'] ∧
      (readline 4 []).blank = true ∧ (['\n'] : List Char) ≠ [] := by
  decide

/-- C3 (amended): a blank logical line contributes exactly one newline byte
(an empty output row) beyond flushing any pending tabular block: its body is
empty but the per-line newline is still written. -/
theorem format_blank_line_single_newline (cfg : config) (l : line)
    (hb : l.blank = true) (ht : l.tabular = false) :
    format cfg [l] = some ['\n'] := by
  simp [format, formatAux, ht, fmtBody, hb, renderTab]

/-- Witness for `format_blank_line_single_newline`. -/
theorem format_blank_line_single_newline_w :
    format ⟨120, 4⟩ [readline 4 [' ']] = some ['\n'] :=
  format_blank_line_single_newline ⟨120, 4⟩ (readline 4 [' ']) (by decide) (by decide)

/-- C4 counterexample: the claim says no subsequently classified line is ever
merged into a blank logical line; with joinShortLines enabled, the non-blank
"x" after an empty line is merged into the preceding blank logical line,
leaving one logical line " x" instead of two. -/
theorem readlines_merges_into_blank :
    readlines 4 true [[], ['x']] = [⟨[' ', 'x'], 0, false, false, false, false, false⟩] ∧
      (readline 4 []).blank = true ∧ (readline 4 ['x']).blank = false := by
  decide

/-- C4 (amended): a blank line never merges into the preceding logical line —
the join step always appends a blank line as its own logical line; but the
converse direction of the claim fails: a later non-blank line can be merged
into a blank logical line when it is incomplete or joinShortLines is set. -/
theorem pushLine_blank_terminates (join : Bool) (acc : List line) (curr : line)
    (h : curr.blank = true) : pushLine join acc curr = curr :: acc :=
  pushLine_blank_append join acc curr h

/-- Witness for `pushLine_blank_terminates`. -/
theorem pushLine_blank_terminates_w :
    pushLine true [readline 4 ['x']] (readline 4 []) = [readline 4 [], readline 4 ['x']] :=
  pushLine_blank_terminates true [readline 4 ['x']] (readline 4 []) (by decide)

/-- C5 counterexample: the claim extends the row-width bound to tabular
lines; a tabular line is never wrapped: with maximum length 6 the input
"aaaaaaa\tbb" renders as the single 10-column row "aaaaaaa bb", which
exceeds the length and is not a single word. -/
theorem format_tabular_row_exceeds_length :
    format ⟨6, 4⟩ [readline 4 "aaaaaaa\tbb".toList] = some "aaaaaaa bb\n".toList ∧
      (6 : Int) < (("aaaaaaa bb".toList).length : Int) ∧
      (splitWords "aaaaaaa bb".toList).length = 2 := by
  decide

/-- C5 (amended): over-long lines are wrapped as needed and never rejected:
every row the word-wrap emits for width `lim` either fits in `lim` or is a
single word of the input that itself exceeds `lim`, sitting alone on its row.
Tabular lines are exempt: they bypass the word-wrap entirely and their
column-aligned rows may exceed the configured length. -/
theorem wrapRows_fit_or_single_long_word (lim : Int) (s : List Char) (r : List Char)
    (hr : r ∈ wrapRows lim s) :
    (r.length : Int) ≤ lim ∨ ∃ w ∈ splitWords s, r = w ∧ lim < (r.length : Int) := by
  rcases List.mem_map.mp hr with ⟨row, hrow, rfl⟩
  by_cases hle : (rowW row : Int) ≤ lim
  · left
    rw [length_rowText]
    exact hle
  · rcases wrapWords_row_bound lim (splitWords s) row hrow with h | ⟨w, rfl⟩
    · exact absurd h hle
    · right
      refine ⟨w, ?_, rowText_single w, ?_⟩
      · rw [← wrapWords_flatten lim (splitWords s)]
        exact List.mem_flatten.mpr ⟨[w], hrow, by simp⟩
      · rw [rowW_single] at hle
        rw [rowText_single]
        exact not_le.mp hle

/-- Witness for `wrapRows_fit_or_single_long_word`. -/
theorem wrapRows_fit_or_single_long_word_w :
    ("ab".toList.length : Int) ≤ 5 ∨
      ∃ w ∈ splitWords "ab".toList, "ab".toList = w ∧ 5 < ("ab".toList.length : Int) :=
  wrapRows_fit_or_single_long_word 5 "ab".toList "ab".toList (by decide)

/-- C6: the join step merges curr into an existing prev exactly when curr is
non-blank and prev.incomplete or joinShortLines holds, updating prev by the
concat formulas (text + space + text, incomplete from curr, blank AND,
becomesTabular OR, quoted AND NOT) without appending curr; otherwise curr is
appended.  The "a b\" then "c d" scenario yields one logical line "a b c d"
with incomplete=false. -/
theorem join_merge_rule :
    (∀ (join : Bool) (acc : List line) (prev curr : line),
        curr.blank = false → (prev.incomplete || join) = true →
        pushLine join (prev :: acc) curr = prev.concat curr :: acc ∧
        (prev.concat curr).text = prev.text ++ ' ' :: curr.text ∧
        (prev.concat curr).incomplete = curr.incomplete ∧
        (prev.concat curr).blank = (prev.blank && curr.blank) ∧
        (prev.concat curr).tabular = (prev.tabular || curr.tabular || curr.quoted) ∧
        (prev.concat curr).quoted =
          (prev.quoted && !(prev.tabular || curr.tabular || curr.quoted))) ∧
    (∀ (join : Bool) (acc : List line) (prev curr : line),
        (!curr.blank && (prev.incomplete || join)) = false →
        pushLine join (prev :: acc) curr = curr :: prev :: acc) ∧
    readlines 4 false ["a b\\".toList, "c d".toList] =
      [⟨"a b c d".toList, 0, false, false, false, false, false⟩] := by
  refine ⟨?_, ?_, by decide⟩
  · intro join acc prev curr hb hj
    exact ⟨by simp [pushLine, hb, hj], rfl, rfl, rfl, rfl, rfl⟩
  · intro join acc prev curr h
    simp [pushLine, h]

/-- Witness for `join_merge_rule`. -/
theorem join_merge_rule_w :
    pushLine false [readline 4 "a b\\".toList] (readline 4 "c d".toList) =
      [(readline 4 "a b\\".toList).concat (readline 4 "c d".toList)] :=
  (join_merge_rule.1 false [] (readline 4 "a b\\".toList) (readline 4 "c d".toList)
      (by decide) (by decide)).1

/-- C7: the word-wrap routine never breaks mid-word — the words of its rows,
concatenated in order, are exactly the input words — and never emits a row
wider than the limit unless that row is a single word that itself exceeds
the limit. -/
theorem wrap_rows_within_limit (lim : Int) (ws : List (List Char)) :
    (wrapWords lim ws).flatten = ws ∧
      ∀ row ∈ wrapWords lim ws,
        (rowW row : Int) ≤ lim ∨ ∃ w, row = [w] ∧ lim < (w.length : Int) := by
  refine ⟨wrapWords_flatten lim ws, ?_⟩
  intro row hrow
  by_cases hle : (rowW row : Int) ≤ lim
  · exact Or.inl hle
  · rcases wrapWords_row_bound lim ws row hrow with h | ⟨w, rfl⟩
    · exact absurd h hle
    · right
      refine ⟨w, rfl, ?_⟩
      rw [rowW_single] at hle
      exact not_le.mp hle

/-- Witness for `wrap_rows_within_limit`. -/
theorem wrap_rows_within_limit_w :
    ((wrapWords 5 [['a']]).flatten = [['a']]) ∧
      ((rowW [['a']] : Int) ≤ 5 ∨ ∃ w, [['a']] = [w] ∧ 5 < (w.length : Int)) :=
  ⟨(wrap_rows_within_limit 5 [['a']]).1,
    (wrap_rows_within_limit 5 [['a']]).2 [['a']] (by decide)⟩

/-- C8: in a rendered tabular block, every column width is at least each of
that column's field widths plus one separator space; and `format` flushes a
maximal tabular run as one block whose widths are computed from the block's
own lines only — the output around a non-tabular line factors through
`renderTab` applied to just that block. -/
theorem tabular_block_column_widths :
    (∀ (block : List (List Char)) (row : List Char) (j : Nat) (f : List Char),
        row ∈ block → (fields row).get? j = some f → f.length + 1 ≤ colW block j) ∧
    (∀ (cfg : config) (block : List line) (l : line) (rest : List line),
        (∀ b ∈ block, b.tabular = true) → l.tabular = false →
        format cfg (block ++ l :: rest) =
          (fmtBody cfg l).bind fun body =>
            (formatAux cfg [] rest).bind fun out =>
              some (renderTab (block.map line.text) ++ body ++ '\n' :: out)) := by
  constructor
  · intro block row j f hrow hf
    exact colW_ge block row j f hrow hf
  · intro cfg block l rest hb hl
    rw [format, formatAux_tab_block cfg block [] (l :: rest) hb]
    conv_lhs => unfold formatAux
    rw [if_neg (by simp [hl])]
    rw [List.nil_append]
    rfl

/-- Witness for `tabular_block_column_widths`. -/
theorem tabular_block_column_widths_w :
    ("a".toList.length + 1 ≤ colW ["a\tb".toList] 0) ∧
      format ⟨120, 4⟩ ([readline 4 "a\tb".toList] ++ readline 4 "x".toList :: []) =
        ((fmtBody ⟨120, 4⟩ (readline 4 "x".toList)).bind fun body =>
          (formatAux ⟨120, 4⟩ [] []).bind fun out =>
            some (renderTab ([readline 4 "a\tb".toList].map line.text) ++
              body ++ '\n' :: out)) :=
  ⟨tabular_block_column_widths.1 ["a\tb".toList] "a\tb".toList 0 "a".toList
      (by decide) (by decide),
    tabular_block_column_widths.2 ⟨120, 4⟩ [readline 4 "a\tb".toList]
      (readline 4 "x".toList) [] (by decide) (by decide)⟩

/-- C9: every logical line of the classifier-joiner output — freshly
classified or produced by merges — satisfies the invariants: tabular and
quoted are never both true, and blank implies both are false. -/
theorem readlines_flag_invariants (ts : Nat) (join : Bool) (raws : List (List Char))
    (l : line) (hl : l ∈ readlines ts join raws) :
    (l.tabular && l.quoted) = false ∧
      (l.blank = true → l.tabular = false ∧ l.quoted = false) :=
  readlines_flagsOK ts join raws l hl

/-- Witness for `readlines_flag_invariants`. -/
theorem readlines_flag_invariants_w :
    ((readline 4 ['a']).tabular && (readline 4 ['a']).quoted) = false ∧
      ((readline 4 ['a']).blank = true →
        (readline 4 ['a']).tabular = false ∧ (readline 4 ['a']).quoted = false) :=
  readlines_flag_invariants 4 false [['a']] (readline 4 ['a']) (by decide)

/-- C10: a trailing backslash on the final raw line before end-of-input is
silently discarded: the line is classified with the backslash stripped and
incomplete=true, the last logical line of the output sequence carries
incomplete=true, and format ignores the incomplete flag entirely, so the
line is formatted exactly like a complete one, with no error. -/
theorem trailing_backslash_at_eof (ts : Nat) (join : Bool) (raws : List (List Char))
    (raw : List Char) (h : raw.getLast? = some '\\') :
    readline ts raw = readlineBody ts true raw.dropLast ∧
    (∃ l, (readlines ts join (raws ++ [raw])).getLast? = some l ∧ l.incomplete = true) ∧
    (∀ cfg, format cfg ((readlines ts join (raws ++ [raw])).map fun l =>
        { l with incomplete := false }) = format cfg (readlines ts join (raws ++ [raw]))) := by
  refine ⟨by rw [readline, if_pos h], ?_, fun cfg => formatAux_incomplete cfg _ []⟩
  rw [readlines, List.map_append]
  simp only [List.map_cons, List.map_nil]
  rw [joinAcc_append]
  obtain ⟨hd, tl, heq, hinc⟩ :=
    pushLine_head join (joinAcc join [] (raws.map (readline ts))) (readline ts raw)
  refine ⟨hd, ?_, ?_⟩
  · rw [heq, List.getLast?_reverse, List.head?_cons]
  · rw [hinc, readline, if_pos h]
    rfl

/-- Witness for `trailing_backslash_at_eof`. -/
theorem trailing_backslash_at_eof_w :
    (∃ l, (readlines 4 false ([] ++ ["a\\".toList])).getLast? = some l ∧
        l.incomplete = true) ∧
      format ⟨120, 4⟩ ((readlines 4 false ([] ++ ["a\\".toList])).map fun l =>
          { l with incomplete := false }) =
        format ⟨120, 4⟩ (readlines 4 false ([] ++ ["a\\".toList])) :=
  ⟨(trailing_backslash_at_eof 4 false [] "a\\".toList (by decide)).2.1,
    (trailing_backslash_at_eof 4 false [] "a\\".toList (by decide)).2.2 ⟨120, 4⟩⟩

end Ted
